import Mathlib

/-!
Verification of the signal-processing core of the pynmd repository
(src/data/signal.py) against its natural-language specification.

Shallow embedding conventions:
* A numpy 1-D float array is a Lean list.  Arrays whose entries may be the
  NaN missing-value sentinel are lists of options (none = NaN).
* Rational numbers stand in for floats where the code only performs field
  operations and comparisons (band_averaging, boxcar, smooth1d_loess, the
  divisor computation of cross_corr), so the definitions are executable.
  Real numbers are used where square roots are required (cross_corr
  standard deviations) and complex numbers for the DFT (psdraw).
* A Python function that can raise (IndexError, NameError on an unbound
  local, early return of None) is embedded as a function into Option,
  returning none exactly on the error paths.
-/

namespace Pynmd

/-- Mean of a list as numpy computes it (sum divided by length).  On the
empty list numpy would return NaN; here the Lean convention 0/0 = 0 applies.
The degenerate case is never reached by the theorems below. -/
def listMeanQ (l : List ℚ) : ℚ := l.sum / l.length

/-!  Band averaging (src/data/signal.py, band_averaging, lines 424-484).

The Python function computes
  Nout = 1 + ceil((N-1)/stencil)
output bins; bin 0 copies the inputs, bins 1..Nout-2 average stencil-wide
slices starting at ind_low = (aa-1)*stencil + 1, and the final bin averages
psd[ind_high:] where ind_high is the loop variable left over from the last
iteration of the middle loop.  When the middle loop body never runs
(Nout < 3) the name ind_high is unbound and the function raises
UnboundLocalError; this is modelled by returning none.  The same holds for
empty input (psd[0] raises IndexError) and stencil 0 (integer division by
zero). -/
def band_averaging (psd freq : List ℚ) (stencil : ℕ) :
    Option (List ℚ × List ℚ) :=
  if stencil = 0 then none
  else if psd.length = 0 then none
  else
    let Nout := 1 + (psd.length - 1 + (stencil - 1)) / stencil
    if Nout < 3 then none
    else
      let mid := (List.range (Nout - 2)).map (fun a0 =>
        let ind_low := a0 * stencil + 1
        (listMeanQ ((freq.drop ind_low).take stencil),
         listMeanQ ((psd.drop ind_low).take stencil)))
      let ind_high := (Nout - 3) * stencil + 1 + stencil
      some (freq.getD 0 0 :: (mid.map Prod.fst ++ [listMeanQ (freq.drop ind_high)]),
            psd.getD 0 0 :: (mid.map Prod.snd ++ [listMeanQ (psd.drop ind_high)]))

/-- Claim C9: with 2 <= N and N-1 <= stencil the bin-count formula gives
Nout = 2, the middle loop of band_averaging never executes, and the function
fails (unbound averaging limit) instead of returning a result. -/
theorem band_averaging_small_input_fails (psd freq : List ℚ) (stencil : ℕ)
    (hs : 1 ≤ stencil) (h2 : 2 ≤ psd.length) (hle : psd.length - 1 ≤ stencil) :
    band_averaging psd freq stencil = none := by
  have hs0 : stencil ≠ 0 := by omega
  have hN0 : psd.length ≠ 0 := by omega
  have hdiv : (psd.length - 1 + (stencil - 1)) / stencil = 1 := by
    apply Nat.div_eq_of_lt_le <;> omega
  unfold band_averaging
  simp [hs0, hN0, hdiv]

/-- Witness for C9 at psd = [1,2,3], stencil = 2. -/
theorem band_averaging_small_input_fails_witness :
    band_averaging [1, 2, 3] [0, 1, 2] 2 = none :=
  band_averaging_small_input_fails [1, 2, 3] [0, 1, 2] 2 (by decide) (by decide)
    (by decide)

/-- Counterexample to claim C3 as stated: for the input spectrum [1,2]
(N = 2) and stencil 1 the claimed output length is 1 + ceil((2-1)/1) = 2,
but band_averaging fails (the averaging-limit variable of the final bin is
never assigned) and returns no arrays at all. -/
theorem band_averaging_length_counterexample :
    band_averaging [1, 2] [0, 1] 1 = none := by decide

/-- Claim C3 (amended): whenever the middle loop runs at least once, i.e.
stencil >= 1 and N >= stencil + 2, band_averaging succeeds and both output
arrays have length exactly 1 + ceil((N-1)/stencil). -/
theorem band_averaging_length (psd freq : List ℚ) (stencil : ℕ)
    (hs : 1 ≤ stencil) (hN : stencil + 2 ≤ psd.length) :
    ∃ fba pba, band_averaging psd freq stencil = some (fba, pba) ∧
      fba.length = 1 + (psd.length - 1 + (stencil - 1)) / stencil ∧
      pba.length = 1 + (psd.length - 1 + (stencil - 1)) / stencil := by
  have hs0 : stencil ≠ 0 := by omega
  have hN0 : psd.length ≠ 0 := by omega
  have hdiv : 2 ≤ (psd.length - 1 + (stencil - 1)) / stencil :=
    (Nat.le_div_iff_mul_le (by omega)).mpr (by omega)
  have hNout : ¬ (1 + (psd.length - 1 + (stencil - 1)) / stencil < 3) := by omega
  unfold band_averaging
  rw [if_neg hs0, if_neg hN0]
  simp only [if_neg hNout]
  refine ⟨_, _, rfl, ?_, ?_⟩ <;>
  · simp only [List.length_cons, List.length_append, List.length_map,
      List.length_range, List.length_singleton, List.length_nil]
    generalize (psd.length - 1 + (stencil - 1)) / stencil = e at hdiv ⊢
    omega

/-- Witness for the amended C3 at psd = [1,2,3], stencil = 1:
the output length is 1 + ceil(2/1) = 3. -/
theorem band_averaging_length_witness :
    ∃ fba pba, band_averaging [1, 2, 3] [0, 1, 2] 1 = some (fba, pba) ∧
      fba.length = 1 + (([1, 2, 3] : List ℚ).length - 1 + (1 - 1)) / 1 ∧
      pba.length = 1 + (([1, 2, 3] : List ℚ).length - 1 + (1 - 1)) / 1 :=
  band_averaging_length [1, 2, 3] [0, 1, 2] 1 (by decide) (by decide)

/-!  Boxcar filter (src/data/signal.py, boxcar, lines 491-552).

Only the span adjustment (line 530, width = span - 1 + span % 2) is needed
by the claims; it determines the effective averaging window width used for
all interior points (the full symmetric window y[aa-offset:aa+offset+1] has
exactly width entries, divided by width). -/
def boxcarWidth (span : ℤ) : ℤ := span - 1 + span % 2

/-- Offset of the symmetric boxcar window (line 531,
offset = int((width - 1)/2.0)). -/
def boxcarOffset (span : ℤ) : ℤ := (boxcarWidth span - 1) / 2

/-- Counterexample to claim C6 as stated: the even span 4 yields an
effective window width of 3, not the nearest odd value 5 greater than or
equal to the span. -/
theorem boxcar_width_counterexample :
    boxcarWidth 4 = 3 ∧ boxcarWidth 4 ≠ 5 := by decide

/-- Claim C6 (amended): boxcar replaces the span by the nearest odd value
less than or equal to it: an even span s is narrowed to s - 1 and an odd
span is kept unchanged.  The resulting width is odd, and the interior
averaging window [aa-offset, aa+offset] has exactly that many points. -/
theorem boxcar_width_nearest_odd_le (span : ℤ) :
    boxcarWidth span = (if span % 2 = 0 then span - 1 else span) ∧
      Odd (boxcarWidth span) ∧ boxcarWidth span ≤ span ∧
      boxcarOffset span + boxcarOffset span + 1 = boxcarWidth span := by
  refine ⟨?_, ?_, ?_, ?_⟩
  · unfold boxcarWidth
    rcases Int.emod_two_eq_zero_or_one span with h | h <;> simp [h]
  · rcases Int.emod_two_eq_zero_or_one span with h | h <;>
      exact ⟨span / 2 - 1 + span % 2, by unfold boxcarWidth; omega⟩
  · unfold boxcarWidth
    omega
  · unfold boxcarOffset boxcarWidth
    omega

/-!  Variance spectrum (src/data/signal.py, psdraw, lines 132-200).

Lines 156-158 execute ts -= ts.mean() when demean is requested: an
IN-PLACE subtraction on the caller's array.  The state of the input buffer
after the call is embedded explicitly. -/

/-- Mean of a real list (numpy mean: sum over length). -/
noncomputable def listMean (l : List ℝ) : ℝ := l.sum / l.length

/-- Population variance of a real list (numpy var with ddof = 0). -/
noncomputable def listVar (l : List ℝ) : ℝ :=
  (l.map (fun x => (x - listMean l) ^ 2)).sum / l.length

/-- The contents of the ts buffer after psdraw(ts, dt, demean) returns
(lines 156-158: ts -= ts.mean() mutates the argument when demean holds). -/
noncomputable def psdrawTsAfter (ts : List ℝ) (demean : Bool) : List ℝ :=
  if demean then ts.map (fun x => x - listMean ts) else ts

/-- Counterexample to claim C7 as stated: after psdraw([0, 2], dt, True)
the input buffer holds [-1, 1], not the original [0, 2]. -/
theorem psdraw_mutates_input_counterexample :
    psdrawTsAfter [0, 2] true ≠ [0, 2] := by
  unfold psdrawTsAfter listMean
  norm_num

/-- Claim C7 (amended): psdraw leaves the input buffer unchanged when
demean=False, and also when demean=True but the series already has zero
mean; with demean=True it overwrites ts with the demeaned values, so the
buffer changes whenever the mean is nonzero. -/
theorem psdraw_input_buffer (ts : List ℝ) :
    psdrawTsAfter ts false = ts ∧
      psdrawTsAfter ts true = ts.map (fun x => x - listMean ts) ∧
      (listMean ts = 0 → psdrawTsAfter ts true = ts) := by
  refine ⟨rfl, rfl, fun h => ?_⟩
  unfold psdrawTsAfter
  simp [h]

/-- Witness for the amended C7 at ts = [1, -1] (zero mean: the buffer
survives even the demeaning branch). -/
theorem psdraw_input_buffer_witness :
    psdrawTsAfter [1, -1] true = [1, -1] :=
  (psdraw_input_buffer [1, -1]).2.2 (by unfold listMean; norm_num)

/-!  Loess smoother (src/data/signal.py, smooth1d_loess, lines 614-742).

Data values are options (none = NaN); grids are plain rationals.  The
weighted least-squares solve (np.linalg.lstsq on the tricubic-weighted
quadratic design matrix, lines 713-727) is an external numpy routine, not
code of this repository; it is abstracted as a parameter fit taking the
selected (dx, value) pairs and returning the regression intercept B[0][0].
Every claim below holds for an arbitrary fit function, so nothing about
the solver is assumed.  The early return at line 695 returns None (the
arrays built so far are discarded), embedded as the none result. -/

/-- Binary minimum written with an explicit comparison so that concrete
evaluation reduces. -/
def qmin (a b : ℚ) : ℚ := if b < a then b else a

/-- Binary maximum written with an explicit comparison. -/
def qmax (a b : ℚ) : ℚ := if a < b then b else a

/-- numpy ndarray.min on a nonempty array (here with a junk value 0 on the
empty array, which the code below never queries). -/
def npMin : List ℚ → ℚ
  | [] => 0
  | x :: xs => xs.foldl qmin x

/-- numpy ndarray.max on a nonempty array. -/
def npMax : List ℚ → ℚ
  | [] => 0
  | x :: xs => xs.foldl qmax x

/-- Selection of the local regression data for one output point (lines
697-710): the pairs (dx, value) of finite data within unit normalized
distance of the (normalized) estimation point e. -/
def loessSelect (data : List (Option ℚ)) (dgrid : List ℚ) (e : ℚ) :
    List (ℚ × ℚ) :=
  (dgrid.zip data).filterMap (fun p =>
    match p.2 with
    | some v => if |p.1 - e| < 1 then some (p.1 - e, v) else none
    | none => none)

/-- Smoothed estimate and flag for one in-range output point (lines
700-738): fewer than 3 usable points leaves the point unestimated; else
the estimate is the regression intercept, and the flag is set to 1 exactly
when the estimate lies strictly between the extremes of the local data. -/
def loessPoint (fit : List (ℚ × ℚ) → ℚ) (data : List (Option ℚ))
    (dgrid : List ℚ) (e : ℚ) : Option ℚ × Option ℚ :=
  if (loessSelect data dgrid e).length < 3 then (none, none)
  else
    (some (fit (loessSelect data dgrid e)),
     if npMin ((loessSelect data dgrid e).map Prod.snd) <
          fit (loessSelect data dgrid e) ∧
        fit (loessSelect data dgrid e) <
          npMax ((loessSelect data dgrid e).map Prod.snd)
     then some 1 else none)

/-- Main loop of smooth1d_loess (lines 689-738) over the normalized
estimation grid: a point below the data minimum is skipped (continue,
line 693), a point above the data maximum aborts the whole call with None
(return, line 695), any other point is processed by loessPoint. -/
def loessRun (fit : List (ℚ × ℚ) → ℚ) (data : List (Option ℚ))
    (dgridN : List ℚ) : List ℚ → Option (List (Option ℚ) × List (Option ℚ))
  | [] => some ([], [])
  | e :: rest =>
      if e < npMin dgridN then
        (loessRun fit data dgridN rest).map (fun r => (none :: r.1, none :: r.2))
      else if npMax dgridN < e then none
      else
        (loessRun fit data dgridN rest).map (fun r =>
          ((loessPoint fit data dgridN e).1 :: r.1,
           (loessPoint fit data dgridN e).2 :: r.2))

/-- smooth1d_loess (lines 614-742): grids are normalized by the span and
the estimation grid is scanned by loessRun.  An empty data grid is an
error in numpy (min of an empty array) and is modelled as none. -/
def smooth1d_loess (fit : List (ℚ × ℚ) → ℚ) (data : List (Option ℚ))
    (dgrid : List ℚ) (span : ℚ) (egrid : List ℚ) :
    Option (List (Option ℚ) × List (Option ℚ)) :=
  if dgrid = [] then none
  else loessRun fit data (dgrid.map (fun x => x / span))
    (egrid.map (fun x => x / span))

/-- Smoothed value produced for a single normalized estimation point of a
successful run. -/
def loessSm (fit : List (ℚ × ℚ) → ℚ) (data : List (Option ℚ))
    (dgridN : List ℚ) (e : ℚ) : Option ℚ :=
  if e < npMin dgridN then none else (loessPoint fit data dgridN e).1

/-- Flag value produced for a single normalized estimation point of a
successful run. -/
def loessFl (fit : List (ℚ × ℚ) → ℚ) (data : List (Option ℚ))
    (dgridN : List ℚ) (e : ℚ) : Option ℚ :=
  if e < npMin dgridN then none else (loessPoint fit data dgridN e).2

lemma loessRun_eq_map (fit : List (ℚ × ℚ) → ℚ) (data : List (Option ℚ))
    (dgridN : List ℚ) (egrid : List ℚ) (sm fl : List (Option ℚ))
    (h : loessRun fit data dgridN egrid = some (sm, fl)) :
    sm = egrid.map (loessSm fit data dgridN) ∧
      fl = egrid.map (loessFl fit data dgridN) := by
  induction egrid generalizing sm fl with
  | nil =>
    simp only [loessRun, Option.some.injEq, Prod.mk.injEq] at h
    simp [← h.1, ← h.2]
  | cons e rest ih =>
    rw [loessRun] at h
    by_cases h1 : e < npMin dgridN
    · rw [if_pos h1] at h
      rcases hr : loessRun fit data dgridN rest with _ | ⟨s, f⟩ <;>
        rw [hr] at h
      · simp at h
      · simp only [Option.map_some', Option.some.injEq, Prod.mk.injEq] at h
        obtain ⟨hs, hf⟩ := ih s f hr
        simp [← h.1, ← h.2, loessSm, loessFl, if_pos h1, hs, hf]
    · rw [if_neg h1] at h
      by_cases h2 : npMax dgridN < e
      · rw [if_pos h2] at h
        simp at h
      · rw [if_neg h2] at h
        rcases hr : loessRun fit data dgridN rest with _ | ⟨s, f⟩ <;>
          rw [hr] at h
        · simp at h
        · simp only [Option.map_some', Option.some.injEq, Prod.mk.injEq] at h
          obtain ⟨hs, hf⟩ := ih s f hr
          simp [← h.1, ← h.2, loessSm, loessFl, if_neg h1, hs, hf]

lemma qmin_le_left (a b : ℚ) : qmin a b ≤ a := by
  unfold qmin
  split <;> linarith

lemma le_qmax_left (a b : ℚ) : a ≤ qmax a b := by
  unfold qmax
  split <;> linarith

lemma foldl_qmin_le_init (xs : List ℚ) (a : ℚ) : xs.foldl qmin a ≤ a := by
  induction xs generalizing a with
  | nil => simp
  | cons y ys ih => exact le_trans (ih (qmin a y)) (qmin_le_left a y)

lemma le_foldl_qmax_init (xs : List ℚ) (a : ℚ) : a ≤ xs.foldl qmax a := by
  induction xs generalizing a with
  | nil => simp
  | cons y ys ih => exact le_trans (le_qmax_left a y) (ih (qmax a y))

lemma npMin_le_npMax (l : List ℚ) (h : l ≠ []) : npMin l ≤ npMax l := by
  match l with
  | [] => exact absurd rfl h
  | x :: xs =>
    exact le_trans (foldl_qmin_le_init xs x) (le_foldl_qmax_init xs x)

lemma loessRun_none_iff (fit : List (ℚ × ℚ) → ℚ) (data : List (Option ℚ))
    (dgridN : List ℚ) (egrid : List ℚ) (hmm : npMin dgridN ≤ npMax dgridN) :
    loessRun fit data dgridN egrid = none ↔
      ∃ e ∈ egrid, npMax dgridN < e := by
  induction egrid with
  | nil => simp [loessRun]
  | cons e rest ih =>
    rw [loessRun]
    by_cases h1 : e < npMin dgridN
    · have h2 : ¬ npMax dgridN < e := by
        intro hc
        exact absurd (lt_trans hc (lt_of_lt_of_le h1 hmm)) (lt_irrefl _)
      rw [if_pos h1]
      simp [Option.map_eq_none', ih, h2]
    · rw [if_neg h1]
      by_cases h2 : npMax dgridN < e
      · simp [if_pos h2, h2]
      · rw [if_neg h2]
        simp [Option.map_eq_none', ih, h2]

/-- Counterexample to claim C5 as stated: the estimation grid [-1, 1] on
data grid [0, 1, 2] (span 10) contains the point -1, which lies outside
the domain bounds of the data grid, yet the subsequent point 1 still
receives a smoothed estimate (here 37, with the solver stubbed to the
constant 37): processing is not halted for points after an out-of-range
point below the data minimum. -/
theorem smooth1d_loess_halt_counterexample :
    smooth1d_loess (fun _ => 37) [some 0, some 1, some 2] [0, 1, 2] 10
      [-1, 1] = some ([none, some 37], [none, none]) := by
  norm_num [smooth1d_loess, loessRun, loessPoint, loessSelect, npMin, npMax,
    qmin, qmax, List.zip, List.zipWith, List.filterMap, List.foldl, abs_lt]
  intro hc
  exact absurd hc (by simp)

/-- Claim C5 (amended): only an estimation point above the data-grid
maximum halts smooth1d_loess, and then the function returns None: no point
at all (earlier ones included) receives an estimate in the returned value.
An estimation point below the data-grid minimum is merely skipped (its
output entry stays NaN) and processing of later points continues. -/
theorem smooth1d_loess_halt (fit : List (ℚ × ℚ) → ℚ) (data : List (Option ℚ))
    (dgrid : List ℚ) (span : ℚ) (egrid : List ℚ) (hd : dgrid ≠ []) :
    ((∃ e ∈ egrid, npMax (dgrid.map (fun x => x / span)) < e / span) →
        smooth1d_loess fit data dgrid span egrid = none) ∧
      (∀ sm fl, smooth1d_loess fit data dgrid span egrid = some (sm, fl) →
        ∀ i e, egrid.get? i = some e →
          e / span < npMin (dgrid.map (fun x => x / span)) →
          sm.get? i = some none) := by
  have hd2 : dgrid.map (fun x => x / span) ≠ [] := by
    simpa using hd
  have hmm := npMin_le_npMax _ hd2
  constructor
  · rintro ⟨e, he, hgt⟩
    unfold smooth1d_loess
    rw [if_neg hd]
    rw [loessRun_none_iff _ _ _ _ hmm]
    exact ⟨e / span, List.mem_map.mpr ⟨e, he, rfl⟩, hgt⟩
  · intro sm fl h i e hi hlt
    unfold smooth1d_loess at h
    rw [if_neg hd] at h
    obtain ⟨hs, _⟩ := loessRun_eq_map _ _ _ _ _ _ h
    rw [hs, List.get?_map, List.get?_map, hi]
    simp [loessSm, if_pos hlt]

/-- Witness for the amended C5: the single estimation point 5 lies above
the data maximum 2, and the call returns None. -/
theorem smooth1d_loess_halt_witness :
    smooth1d_loess (fun _ => (0 : ℚ)) [some 0] [0, 1, 2] 1 [5] = none :=
  (smooth1d_loess_halt (fun _ => (0 : ℚ)) [some 0] [0, 1, 2] 1 [5]
    (by decide)).1
    (by norm_num [npMax, qmax, List.foldl])

/-- Claim C10: the flag array of a successful smooth1d_loess call never
contains 0: every entry is either the NaN sentinel it was initialized to
or 1, and an entry is 1 exactly when a smoothed estimate was produced at
that point and lies strictly between the minimum and the maximum of the
local data used in the fit. -/
theorem smooth1d_loess_flag (fit : List (ℚ × ℚ) → ℚ) (data : List (Option ℚ))
    (dgrid : List ℚ) (span : ℚ) (egrid : List ℚ) (sm fl : List (Option ℚ))
    (h : smooth1d_loess fit data dgrid span egrid = some (sm, fl)) :
    (∀ f ∈ fl, f = none ∨ f = some 1) ∧
      (∀ i e, egrid.get? i = some e →
        (fl.get? i = some (some 1) ↔
          ∃ b, sm.get? i = some (some b) ∧
            npMin ((loessSelect data (dgrid.map (fun x => x / span))
              (e / span)).map Prod.snd) < b ∧
            b < npMax ((loessSelect data (dgrid.map (fun x => x / span))
              (e / span)).map Prod.snd))) := by
  unfold smooth1d_loess at h
  by_cases hd : dgrid = []
  · rw [if_pos hd] at h
    exact absurd h (by simp)
  rw [if_neg hd] at h
  obtain ⟨hs, hf⟩ := loessRun_eq_map _ _ _ _ _ _ h
  constructor
  · intro f hfmem
    rw [hf] at hfmem
    obtain ⟨e, _, he⟩ := List.mem_map.mp hfmem
    rw [← he]
    unfold loessFl loessPoint
    split
    · exact Or.inl rfl
    split
    · exact Or.inl rfl
    split
    · exact Or.inr rfl
    · exact Or.inl rfl
  · intro i e hi
    rw [hs, hf]
    simp only [List.get?_map, hi, Option.map_some', Option.some.injEq]
    unfold loessFl loessSm loessPoint
    by_cases h1 : e / span < npMin (dgrid.map (fun x => x / span))
    · rw [if_pos h1, if_pos h1]
      simp
    rw [if_neg h1, if_neg h1]
    by_cases h2 :
        (loessSelect data (dgrid.map (fun x => x / span)) (e / span)).length
          < 3
    · rw [if_pos h2]
      simp
    rw [if_neg h2]
    by_cases h3 :
        npMin ((loessSelect data (dgrid.map (fun x => x / span))
              (e / span)).map Prod.snd) <
          fit (loessSelect data (dgrid.map (fun x => x / span)) (e / span)) ∧
        fit (loessSelect data (dgrid.map (fun x => x / span)) (e / span)) <
          npMax ((loessSelect data (dgrid.map (fun x => x / span))
              (e / span)).map Prod.snd)
    · rw [if_pos h3]
      constructor
      · intro _
        exact ⟨fit (loessSelect data (dgrid.map (fun x => x / span))
          (e / span)), rfl, h3.1, h3.2⟩
      · intro _
        rfl
    · rw [if_neg h3]
      constructor
      · intro hc
        exact Option.noConfusion hc
      · rintro ⟨b, hb, hlo, hhi⟩
        have hb2 : fit (loessSelect data (dgrid.map (fun x => x / span))
            (e / span)) = b := by
          injection hb
        subst hb2
        exact absurd ⟨hlo, hhi⟩ h3

/-- Witness for C10 on a concrete successful run: data [0,1,2] on grid
[0,1,2], span 10, one estimation point 1, solver stubbed to 1/2 (inside
the local data range, so the flag is 1). -/
theorem smooth1d_loess_flag_witness :
    some (1 : ℚ) = none ∨ some (1 : ℚ) = some 1 :=
  (smooth1d_loess_flag (fun _ => 1/2) [some 0, some 1, some 2] [0, 1, 2] 10
    [1] [some (1/2)] [some 1]
    (by
      norm_num [smooth1d_loess, loessRun, loessPoint, loessSelect, npMin,
        npMax, qmin, qmax, List.zip, List.zipWith, List.filterMap, List.foldl,
        abs_lt]
      intro hc
      exact absurd hc (by simp))).1 (some 1) (by simp)

/-!  Cross correlation (src/data/signal.py, cross_corr, lines 47-126).

Series entries are options (none = NaN).  The per-lag computation is split
into the same steps as the source: the lag-dependent subsetting (lines
93-103), the symmetric NaN matching (lines 107-108), the divisor nn (line
111), means, cross-covariance and correlation coefficient (lines 112-117),
and the per-lag statistics row. -/

/-- Divisor used for the means and the cross-covariance (line 111):
nn = sum(isfinite(xtmp) - 1.0 + norma), where isfinite casts to 1.0 for a
finite entry and 0.0 for NaN. -/
def nnDivisor {α : Type} (v : List (Option α)) (norma : ℚ) : ℚ :=
  (v.map (fun x => (if x.isSome then (1 : ℚ) else 0) - 1 + norma)).sum

/-- Lag-dependent subsetting (lines 93-103): for lag aa > 0 the pair is
(x[0:-aa], y[aa:]), for aa < 0 it is (x[-aa:], y[0:aa]), for aa = 0 both
series in full. -/
def lagSubset {α : Type} (x y : List (Option α)) (aa : ℤ) :
    List (Option α) × List (Option α) :=
  if 0 < aa then (x.take (x.length - aa.toNat), y.drop aa.toNat)
  else if aa < 0 then (x.drop (-aa).toNat, y.take (y.length - (-aa).toNat))
  else (x, y)

/-- One masking assignment a[np.isnan(b)] = nan: entry i of a is erased
when entry i of b is NaN. -/
def maskBy {α β : Type} (a : List (Option α)) (b : List (Option β)) :
    List (Option α) :=
  (a.zip b).map (fun p => if p.2.isSome then p.1 else none)

/-- Symmetric NaN matching (lines 107-108): first xtmp is masked by the
NaNs of ytmp, then ytmp is masked by the NaNs of the updated xtmp. -/
def nanMatch {α : Type} (x y : List (Option α)) :
    List (Option α) × List (Option α) :=
  (maskBy x y, maskBy y (maskBy x y))

/-- np.nansum: sum of the finite entries. -/
noncomputable def nansum (v : List (Option ℝ)) : ℝ := (v.filterMap id).sum

/-- np.nanstd: population standard deviation over the finite entries. -/
noncomputable def nanstd (v : List (Option ℝ)) : ℝ :=
  Real.sqrt (((v.filterMap id).map
      (fun x => (x - (v.filterMap id).sum / (v.filterMap id).length) ^ 2)).sum /
    (v.filterMap id).length)

/-- The NaN-matched x window at lag aa. -/
def ccXt (x y : List (Option ℝ)) (aa : ℤ) : List (Option ℝ) :=
  (nanMatch (lagSubset x y aa).1 (lagSubset x y aa).2).1

/-- The NaN-matched y window at lag aa. -/
def ccYt (x y : List (Option ℝ)) (aa : ℤ) : List (Option ℝ) :=
  (nanMatch (lagSubset x y aa).1 (lagSubset x y aa).2).2

/-- The divisor nn at lag aa, as a real number. -/
noncomputable def ccNn (x y : List (Option ℝ)) (norma : ℚ) (aa : ℤ) : ℝ :=
  ((nnDivisor (ccXt x y aa) norma : ℚ) : ℝ)

/-- Cross-covariance at lag aa (line 116): the nansum of the product of
deviations (a NaN in a factor annihilates the term) divided by nn. -/
noncomputable def ccCov (x y : List (Option ℝ)) (norma : ℚ) (aa : ℤ) : ℝ :=
  (((ccXt x y aa).zip (ccYt x y aa)).map (fun p =>
      match p with
      | (some a, some b) =>
          (a - nansum (ccXt x y aa) / ccNn x y norma aa) *
            (b - nansum (ccYt x y aa) / ccNn x y norma aa)
      | _ => 0)).sum / ccNn x y norma aa

/-- Correlation coefficient at lag aa (line 117). -/
noncomputable def ccRho (x y : List (Option ℝ)) (norma : ℚ) (aa : ℤ) : ℝ :=
  ccCov x y norma aa / nanstd (ccXt x y aa) / nanstd (ccYt x y aa)

/-- One row of the outputs of cross_corr: the lag, the correlation
coefficient rho, and the stats columns (cross-covariance, both standard
deviations, number of finite observations, lines 117-124). -/
structure CCRow where
  lag : ℤ
  rho : ℝ
  cov : ℝ
  sx : ℝ
  sy : ℝ
  nobs : ℕ

/-- The outputs of cross_corr for a single lag. -/
noncomputable def crossCorrAt (x y : List (Option ℝ)) (norma : ℚ) (aa : ℤ) :
    CCRow :=
  { lag := aa, rho := ccRho x y norma aa, cov := ccCov x y norma aa,
    sx := nanstd (ccXt x y aa), sy := nanstd (ccYt x y aa),
    nobs := ((ccXt x y aa).filterMap id).length }

/-- cross_corr (lines 47-126): one row per lag aa in [-lags, lags], stored
at index aa + lags; a norma outside {0, 1} is corrected to 1 (lines
80-83). -/
noncomputable def cross_corr (x y : List (Option ℝ)) (lags : ℕ) (norma : ℚ) :
    List CCRow :=
  (List.range (2 * lags + 1)).map (fun i : ℕ =>
    crossCorrAt x y (if norma = 0 ∨ norma = 1 then norma else 1)
      ((i : ℤ) - lags))

/-- Claim C4 (code bug): at the failing input x = y = [1,2,3,4], lag 0,
norma = 0, the divisor nn computed at line 111 is 0 (and would be
sum(isfinite) - window length, i.e. nonpositive, for any input), although
the actual-overlap count of finite observations used by the claim -- and
reported in the stats row -- is 4.  The code then divides by zero. -/
theorem cross_corr_divisor_bug :
    ccNn [some 1, some 2, some 3, some 4] [some 1, some 2, some 3, some 4]
        0 0 = 0 ∧
      (crossCorrAt [some 1, some 2, some 3, some 4]
        [some 1, some 2, some 3, some 4] 0 0).nobs = 4 := by
  constructor
  · norm_num [ccNn, ccXt, nanMatch, maskBy, lagSubset, nnDivisor, List.zip,
      List.zipWith]
  · norm_num [crossCorrAt, ccXt, nanMatch, maskBy, lagSubset, List.zip,
      List.zipWith, List.filterMap]

lemma lagSubset_swap {α : Type} (x y : List (Option α)) (aa : ℤ) :
    lagSubset y x (-aa) = ((lagSubset x y aa).2, (lagSubset x y aa).1) := by
  unfold lagSubset
  rcases lt_trichotomy aa 0 with h | h | h
  · rw [if_pos (by omega : (0 : ℤ) < -aa), if_neg (by omega : ¬ (0 : ℤ) < aa),
      if_pos h]
  · subst h
    simp
  · rw [if_neg (by omega : ¬ (0 : ℤ) < -aa),
      if_pos (by omega : -aa < (0 : ℤ)), if_pos h]
    simp

lemma maskBy_nil_left {α β : Type} (b : List (Option β)) :
    maskBy ([] : List (Option α)) b = [] := rfl

lemma maskBy_nil_right {α β : Type} (a : List (Option α)) :
    maskBy a ([] : List (Option β)) = [] := by
  cases a <;> rfl

lemma maskBy_cons {α β : Type} (x : Option α) (y : Option β)
    (xs : List (Option α)) (ys : List (Option β)) :
    maskBy (x :: xs) (y :: ys) =
      (if y.isSome then x else none) :: maskBy xs ys := rfl

lemma maskBy_maskBy {α β : Type} (a : List (Option α)) (b : List (Option β)) :
    maskBy b (maskBy a b) = maskBy b a := by
  induction a generalizing b with
  | nil => simp [maskBy_nil_left, maskBy_nil_right]
  | cons x xs ih =>
    cases b with
    | nil => simp [maskBy_nil_left, maskBy_nil_right]
    | cons y ys =>
      rw [maskBy_cons, maskBy_cons, maskBy_cons, ih]
      cases x <;> cases y <;> rfl

lemma nanMatch_swap {α : Type} (a b : List (Option α)) :
    nanMatch b a = ((nanMatch a b).2, (nanMatch a b).1) := by
  unfold nanMatch
  rw [maskBy_maskBy, maskBy_maskBy]

lemma nnDivisor_maskBy_comm {α β : Type} (a : List (Option α))
    (b : List (Option β)) (n : ℚ) :
    nnDivisor (maskBy a b) n = nnDivisor (maskBy b a) n := by
  induction a generalizing b with
  | nil => cases b <;> simp [maskBy_nil_left, maskBy_nil_right, nnDivisor]
  | cons x xs ih =>
    cases b with
    | nil => simp [maskBy_nil_left, maskBy_nil_right, nnDivisor]
    | cons y ys =>
      rw [maskBy_cons, maskBy_cons]
      unfold nnDivisor at ih ⊢
      simp only [List.map_cons, List.sum_cons]
      rw [ih ys]
      cases x <;> cases y <;> rfl

lemma ccXt_swap (x y : List (Option ℝ)) (aa : ℤ) :
    ccXt y x (-aa) = ccYt x y aa := by
  unfold ccXt ccYt
  rw [lagSubset_swap]
  rw [show ((lagSubset x y aa).2, (lagSubset x y aa).1).1 =
    (lagSubset x y aa).2 from rfl]
  rw [show ((lagSubset x y aa).2, (lagSubset x y aa).1).2 =
    (lagSubset x y aa).1 from rfl]
  rw [nanMatch_swap]

lemma ccYt_swap (x y : List (Option ℝ)) (aa : ℤ) :
    ccYt y x (-aa) = ccXt x y aa := by
  unfold ccXt ccYt
  rw [lagSubset_swap]
  rw [show ((lagSubset x y aa).2, (lagSubset x y aa).1).1 =
    (lagSubset x y aa).2 from rfl]
  rw [show ((lagSubset x y aa).2, (lagSubset x y aa).1).2 =
    (lagSubset x y aa).1 from rfl]
  rw [nanMatch_swap]

lemma ccNn_swap (x y : List (Option ℝ)) (n : ℚ) (aa : ℤ) :
    ccNn y x n (-aa) = ccNn x y n aa := by
  unfold ccNn
  rw [ccXt_swap]
  unfold ccYt ccXt nanMatch
  rw [show (maskBy (lagSubset x y aa).1 (lagSubset x y aa).2,
      maskBy (lagSubset x y aa).2
        (maskBy (lagSubset x y aa).1 (lagSubset x y aa).2)).2 =
    maskBy (lagSubset x y aa).2
      (maskBy (lagSubset x y aa).1 (lagSubset x y aa).2) from rfl]
  rw [show (maskBy (lagSubset x y aa).1 (lagSubset x y aa).2,
      maskBy (lagSubset x y aa).2
        (maskBy (lagSubset x y aa).1 (lagSubset x y aa).2)).1 =
    maskBy (lagSubset x y aa).1 (lagSubset x y aa).2 from rfl]
  rw [maskBy_maskBy, nnDivisor_maskBy_comm]

lemma covSum_swap (xt yt : List (Option ℝ)) (xm ym : ℝ) :
    ((yt.zip xt).map (fun p =>
        match p with
        | (some b, some a) => (b - ym) * (a - xm)
        | _ => 0)).sum =
      ((xt.zip yt).map (fun p =>
        match p with
        | (some a, some b) => (a - xm) * (b - ym)
        | _ => 0)).sum := by
  induction xt generalizing yt with
  | nil => cases yt <;> simp
  | cons a as ih =>
    cases yt with
    | nil => simp
    | cons b bs =>
      simp only [List.zip_cons_cons, List.map_cons, List.sum_cons]
      rw [ih bs]
      cases a <;> cases b <;> simp [mul_comm]

lemma ccCov_swap (x y : List (Option ℝ)) (n : ℚ) (aa : ℤ) :
    ccCov y x n (-aa) = ccCov x y n aa := by
  unfold ccCov
  rw [ccXt_swap, ccYt_swap, ccNn_swap, covSum_swap]

lemma ccRho_swap (x y : List (Option ℝ)) (n : ℚ) (aa : ℤ) :
    ccRho y x n (-aa) = ccRho x y n aa := by
  unfold ccRho
  rw [ccXt_swap, ccYt_swap, ccCov_swap, div_div, div_div,
    mul_comm (nanstd (ccYt x y aa)) (nanstd (ccXt x y aa))]

lemma crossCorrAt_swap (x y : List (Option ℝ)) (n : ℚ) (aa : ℤ) :
    (crossCorrAt y x n (-aa)).cov = (crossCorrAt x y n aa).cov ∧
      (crossCorrAt y x n (-aa)).rho = (crossCorrAt x y n aa).rho :=
  ⟨ccCov_swap x y n aa, ccRho_swap x y n aa⟩

lemma cross_corr_get (x y : List (Option ℝ)) (lags : ℕ) (norma : ℚ) (i : ℕ)
    (hi : i < 2 * lags + 1) :
    (cross_corr x y lags norma).get? i =
      some (crossCorrAt x y (if norma = 0 ∨ norma = 1 then norma else 1)
        ((i : ℤ) - lags)) := by
  unfold cross_corr
  rw [List.get?_map, List.get?_range hi]
  rfl

/-- Claim C8: the cross-covariance and the correlation coefficient of
cross_corr(x, y, L) at lag k (stored at index k + L) equal those of
cross_corr(y, x, L) at lag -k (stored at index L - k), for every pair of
equal-length series with NaNs allowed and every k in [-L, L]. -/
theorem cross_corr_symmetry (x y : List (Option ℝ)) (L : ℕ) (norma : ℚ)
    (k : ℤ) (hlen : x.length = y.length) (h1 : -(L : ℤ) ≤ k)
    (h2 : k ≤ (L : ℤ)) :
    ∃ rxy ryx : CCRow,
      (cross_corr x y L norma).get? (k + L).toNat = some rxy ∧
        (cross_corr y x L norma).get? ((L : ℤ) - k).toNat = some ryx ∧
        rxy.cov = ryx.cov ∧ rxy.rho = ryx.rho := by
  have hi1 : (k + L).toNat < 2 * L + 1 := by omega
  have hi2 : ((L : ℤ) - k).toNat < 2 * L + 1 := by omega
  have e1 : (((k + L).toNat : ℤ)) - (L : ℤ) = k := by omega
  have e2 : ((((L : ℤ) - k).toNat : ℤ)) - (L : ℤ) = -k := by omega
  refine ⟨_, _, cross_corr_get x y L norma _ hi1,
    cross_corr_get y x L norma _ hi2, ?_, ?_⟩
  · rw [e1, e2]
    exact (crossCorrAt_swap x y _ k).1.symm
  · rw [e1, e2]
    exact (crossCorrAt_swap x y _ k).2.symm

/-- Witness for C8 at x = [1, 2], y = [2, 1], L = 1, k = 1. -/
theorem cross_corr_symmetry_witness :
    ∃ rxy ryx : CCRow,
      (cross_corr [some 1, some 2] [some 2, some 1] 1 1).get? 2 = some rxy ∧
        (cross_corr [some 2, some 1] [some 1, some 2] 1 1).get? 0 =
          some ryx ∧
        rxy.cov = ryx.cov ∧ rxy.rho = ryx.rho := by
  have h := cross_corr_symmetry [some 1, some 2] [some 2, some 1] 1 1 1 rfl
    (by decide) (by decide)
  simpa using h

/-!  Raw spectral estimator (src/data/signal.py, psdraw, lines 132-200).

The discrete Fourier transform np.fft.fft (line 185) is
X_k = sum_j ts_j exp(-2 pi i j k / N); yf = X/N, and the two-sided PSD is
psd_k = N dt yf_k conj(yf_k) (line 186).  The one-sided folding (lines
189-196) doubles bins 1..N/2-1 and keeps bins 0 and N/2 (even N), or
doubles bins 1..(N+1)/2-1 (odd N); the function returns sf.real.  The
claims are settled against these embeddings; the frequency axis of psdraw
is the uniform grid k/(N dt), so the integral of Sf over it is the Riemann
sum (sum Sf) * df with df = 1/(N dt). -/

/-- np.fft.fft coefficient k of a real series (line 185). -/
noncomputable def dftCoef (ts : List ℝ) (k : ℕ) : ℂ :=
  ∑ j ∈ Finset.range ts.length,
    (ts.getD j 0 : ℂ) *
      Complex.exp (-(2 * Real.pi * Complex.I) * j * k / ts.length)

/-- Two-sided PSD bin k: psd = N*dt*yf*conj(yf) with yf = fft(ts)/N
(lines 185-186). -/
noncomputable def psdFun (ts : List ℝ) (dt : ℝ) (k : ℕ) : ℂ :=
  (ts.length : ℂ) * (dt : ℂ) *
    (dftCoef ts k / ts.length * (starRingEnd ℂ) (dftCoef ts k / ts.length))

/-- The state of the series used for the transform: demeaned in place when
the flag is set (lines 156-158). -/
noncomputable def demeanIf (ts : List ℝ) (demean : Bool) : List ℝ :=
  if demean then ts.map (fun x => x - listMean ts) else ts

/-- One-sided complex spectrum before taking real parts (lines 189-196):
np.concatenate((psd[0:1], 2*psd[1:N/2], psd[N/2:N/2+1])) for even N and
np.concatenate((psd[0:1], 2*psd[1:(N+1)/2])) for odd N; a slice
psd[a:b] is the image of the index range a..b-1. -/
noncomputable def psdrawSfC (ts : List ℝ) (dt : ℝ) : List ℂ :=
  if ts.length % 2 = 0 then
    [psdFun ts dt 0] ++
      (List.range' 1 (ts.length / 2 - 1)).map (fun k => 2 * psdFun ts dt k) ++
      [psdFun ts dt (ts.length / 2)]
  else
    [psdFun ts dt 0] ++
      (List.range' 1 ((ts.length + 1) / 2 - 1)).map
        (fun k => 2 * psdFun ts dt k)

/-- The Sf array returned by psdraw (line 200: sf.real), with the optional
demeaning applied first. -/
noncomputable def psdrawSf (ts : List ℝ) (dt : ℝ) (demean : Bool) : List ℝ :=
  (psdrawSfC (demeanIf ts demean) dt).map Complex.re

lemma exp_orth (N : ℕ) (hN : 0 < N) (m : ℤ) :
    ∑ k ∈ Finset.range N,
        Complex.exp (-(2 * Real.pi * Complex.I) * m * k / N) =
      if (N : ℤ) ∣ m then (N : ℂ) else 0 := by
  have hNC : (N : ℂ) ≠ 0 := Nat.cast_ne_zero.mpr hN.ne'
  have h2pi : (2 : ℂ) * Real.pi * Complex.I ≠ 0 := by
    simp [Real.pi_ne_zero, Complex.I_ne_zero]
  set z : ℂ := Complex.exp (-(2 * Real.pi * Complex.I) * m / N) with hzdef
  have hterm : ∀ k : ℕ,
      Complex.exp (-(2 * Real.pi * Complex.I) * m * k / N) = z ^ k := by
    intro k
    rw [hzdef, ← Complex.exp_nat_mul]
    congr 1
    ring
  simp only [hterm]
  by_cases hdvd : (N : ℤ) ∣ m
  · obtain ⟨c, hc⟩ := hdvd
    have hz1 : z = 1 := by
      have hm : (m : ℂ) = (N : ℂ) * (c : ℂ) := by
        rw [hc]; push_cast; ring
      rw [hzdef]
      rw [show -(2 * (Real.pi : ℂ) * Complex.I) * m / N =
          ((-c : ℤ) : ℂ) * (2 * Real.pi * Complex.I) by
        rw [hm]; push_cast; field_simp; ring]
      exact Complex.exp_int_mul_two_pi_mul_I (-c)
    rw [if_pos ⟨c, hc⟩]
    simp [hz1]
  · have hz1 : z ≠ 1 := by
      intro h1
      rw [hzdef] at h1
      obtain ⟨n, hn⟩ := Complex.exp_eq_one_iff.mp h1
      apply hdvd
      refine ⟨-n, ?_⟩
      have h5 : -(2 * (Real.pi : ℂ) * Complex.I) * m =
          n * (2 * Real.pi * Complex.I) * N := (div_eq_iff hNC).mp hn
      have h6 : (2 * (Real.pi : ℂ) * Complex.I) * (-(m : ℂ)) =
          (2 * (Real.pi : ℂ) * Complex.I) * ((n : ℂ) * N) := by
        linear_combination h5
      have h7 : -(m : ℂ) = (n : ℂ) * N := mul_left_cancel₀ h2pi h6
      have h8 : (m : ℂ) = ((N : ℤ) : ℂ) * ((-n : ℤ) : ℂ) := by
        push_cast
        linear_combination -h7
      exact_mod_cast h8
    rw [geom_sum_eq hz1]
    have hzN : z ^ N = 1 := by
      rw [hzdef, ← Complex.exp_nat_mul]
      rw [show (N : ℂ) * (-(2 * (Real.pi : ℂ) * Complex.I) * m / N) =
          ((-m : ℤ) : ℂ) * (2 * Real.pi * Complex.I) by
        push_cast; field_simp; ring]
      exact Complex.exp_int_mul_two_pi_mul_I (-m)
    rw [hzN, if_neg hdvd]
    simp

lemma dft_conj (ts : List ℝ) (k : ℕ) :
    (starRingEnd ℂ) (dftCoef ts k) =
      ∑ j ∈ Finset.range ts.length,
        (ts.getD j 0 : ℂ) *
          Complex.exp ((2 * Real.pi * Complex.I) * j * k / ts.length) := by
  unfold dftCoef
  rw [map_sum]
  refine Finset.sum_congr rfl fun j _ => ?_
  rw [map_mul, Complex.conj_ofReal, ← Complex.exp_conj]
  congr 1
  simp only [map_div₀, map_mul, map_neg, Complex.conj_ofReal, Complex.conj_I,
    map_natCast, map_ofNat]
  ring

lemma dft_parseval (ts : List ℝ) :
    ∑ k ∈ Finset.range ts.length, Complex.normSq (dftCoef ts k) =
      ts.length * ∑ j ∈ Finset.range ts.length, (ts.getD j 0) ^ 2 := by
  rcases Nat.eq_zero_or_pos ts.length with h0 | hN
  · simp [h0]
  have hsum : ∀ k : ℕ, dftCoef ts k * (starRingEnd ℂ) (dftCoef ts k) =
      ∑ j ∈ Finset.range ts.length, ∑ l ∈ Finset.range ts.length,
        ((ts.getD j 0 : ℂ) * (ts.getD l 0 : ℂ)) *
          Complex.exp (-(2 * Real.pi * Complex.I) * (((j : ℤ) - (l : ℤ)) : ℂ)
            * k / ts.length) := by
    intro k
    rw [dft_conj]
    unfold dftCoef
    rw [Finset.sum_mul_sum]
    refine Finset.sum_congr rfl fun j _ => Finset.sum_congr rfl fun l _ => ?_
    rw [mul_mul_mul_comm, ← Complex.exp_add]
    congr 1
    push_cast
    ring
  have key : ∑ k ∈ Finset.range ts.length,
      (dftCoef ts k * (starRingEnd ℂ) (dftCoef ts k)) =
      (ts.length : ℂ) * ∑ j ∈ Finset.range ts.length,
        ((ts.getD j 0 : ℂ)) ^ 2 := by
    simp only [hsum]
    rw [Finset.sum_comm]
    refine Eq.trans (Finset.sum_congr rfl fun j _ => Finset.sum_comm) ?_
    have horth : ∀ j ∈ Finset.range ts.length, ∀ l ∈ Finset.range ts.length,
        ∑ k ∈ Finset.range ts.length,
            ((ts.getD j 0 : ℂ) * (ts.getD l 0 : ℂ)) *
              Complex.exp (-(2 * Real.pi * Complex.I) *
                (((j : ℤ) - (l : ℤ)) : ℂ) * k / ts.length) =
          ((ts.getD j 0 : ℂ) * (ts.getD l 0 : ℂ)) *
            (if l = j then (ts.length : ℂ) else 0) := by
      intro j hj l hl
      simp only [Finset.mem_range] at hj hl
      rw [← Finset.mul_sum]
      congr 1
      have horth1 := exp_orth ts.length hN ((j : ℤ) - (l : ℤ))
      push_cast at horth1 ⊢
      rw [horth1]
      refine if_congr ?_ rfl rfl
      constructor
      · intro hdvd
        have habs : |(j : ℤ) - (l : ℤ)| < (ts.length : ℤ) := by
          rw [abs_lt]
          omega
        have := Int.eq_zero_of_abs_lt_dvd hdvd habs
        omega
      · rintro rfl
        simp
    refine Eq.trans (Finset.sum_congr rfl fun j hj =>
      Finset.sum_congr rfl fun l hl => horth j hj l hl) ?_
    have hdiag : ∀ j ∈ Finset.range ts.length,
        ∑ l ∈ Finset.range ts.length,
            ((ts.getD j 0 : ℂ) * (ts.getD l 0 : ℂ)) *
              (if l = j then (ts.length : ℂ) else 0) =
          ((ts.getD j 0 : ℂ)) ^ 2 * ts.length := by
      intro j hj
      rw [Finset.sum_eq_single j]
      · rw [if_pos rfl]; ring
      · intro l _ hne
        rw [if_neg hne, mul_zero]
      · intro hnotmem
        exact absurd hj hnotmem
    refine Eq.trans (Finset.sum_congr rfl fun j hj => hdiag j hj) ?_
    rw [← Finset.sum_mul]
    ring
  have lhs_eq : ∑ k ∈ Finset.range ts.length,
      (dftCoef ts k * (starRingEnd ℂ) (dftCoef ts k)) =
      ((∑ k ∈ Finset.range ts.length, Complex.normSq (dftCoef ts k) : ℝ) : ℂ) := by
    push_cast
    exact Finset.sum_congr rfl fun k _ => Complex.mul_conj _
  rw [lhs_eq] at key
  have rhs_eq : ((ts.length : ℂ)) * ∑ j ∈ Finset.range ts.length,
      ((ts.getD j 0 : ℂ)) ^ 2 =
      (((ts.length : ℝ) * ∑ j ∈ Finset.range ts.length,
        (ts.getD j 0) ^ 2 : ℝ) : ℂ) := by
    push_cast
    ring
  rw [rhs_eq] at key
  exact_mod_cast key

lemma dft_reflect (ts : List ℝ) (k : ℕ) (hk : k ≤ ts.length)
    (hN : 0 < ts.length) :
    dftCoef ts (ts.length - k) = (starRingEnd ℂ) (dftCoef ts k) := by
  have hNC : (ts.length : ℂ) ≠ 0 := Nat.cast_ne_zero.mpr hN.ne'
  rw [dft_conj]
  unfold dftCoef
  refine Finset.sum_congr rfl fun j hj => ?_
  congr 1
  rw [Nat.cast_sub hk]
  rw [show -(2 * (Real.pi : ℂ) * Complex.I) * j * ((ts.length : ℂ) - k) /
      ts.length =
      ((-(j : ℤ) : ℤ) : ℂ) * (2 * Real.pi * Complex.I) +
        (2 * Real.pi * Complex.I) * j * k / ts.length by
    push_cast
    field_simp
    ring]
  rw [Complex.exp_add, Complex.exp_int_mul_two_pi_mul_I, one_mul]

lemma normSq_dft_reflect (ts : List ℝ) (k : ℕ) (hk : k ≤ ts.length)
    (hN : 0 < ts.length) :
    Complex.normSq (dftCoef ts (ts.length - k)) =
      Complex.normSq (dftCoef ts k) := by
  rw [dft_reflect ts k hk hN, Complex.normSq_conj]

lemma sum_fold_even (g : ℕ → ℝ) (M : ℕ) (hM : 1 ≤ M)
    (hsym : ∀ k, 1 ≤ k → k < 2 * M → g (2 * M - k) = g k) :
    ∑ k ∈ Finset.range (2 * M), g k =
      g 0 + 2 * ∑ k ∈ Finset.Ico 1 M, g k + g M := by
  rw [Finset.range_eq_Ico]
  rw [← Finset.sum_Ico_consecutive g (by omega : 0 ≤ M + 1)
    (by omega : M + 1 ≤ 2 * M)]
  rw [Finset.sum_eq_sum_Ico_succ_bot (by omega : 0 < M + 1)]
  rw [Finset.sum_Ico_succ_top (by omega : 1 ≤ M)]
  have hrefl : ∑ k ∈ Finset.Ico (M + 1) (2 * M), g k =
      ∑ k ∈ Finset.Ico 1 M, g k := by
    rw [Finset.sum_Ico_eq_sum_range, Finset.sum_Ico_eq_sum_range]
    have hlen : 2 * M - (M + 1) = M - 1 := by omega
    rw [hlen]
    rw [← Finset.sum_range_reflect (fun i => g (1 + i)) (M - 1)]
    refine Finset.sum_congr rfl fun i hi => ?_
    simp only [Finset.mem_range] at hi
    have h1 : 1 + (M - 1 - 1 - i) = M - 1 - i := by omega
    rw [h1]
    have h2 := hsym (M + 1 + i) (by omega) (by omega)
    have h3 : 2 * M - (M + 1 + i) = M - 1 - i := by omega
    rw [h3] at h2
    exact h2.symm
  rw [hrefl]
  ring

lemma sum_fold_odd (g : ℕ → ℝ) (M : ℕ)
    (hsym : ∀ k, 1 ≤ k → k < 2 * M + 1 → g (2 * M + 1 - k) = g k) :
    ∑ k ∈ Finset.range (2 * M + 1), g k =
      g 0 + 2 * ∑ k ∈ Finset.Ico 1 (M + 1), g k := by
  rw [Finset.range_eq_Ico]
  rw [← Finset.sum_Ico_consecutive g (by omega : 0 ≤ M + 1)
    (by omega : M + 1 ≤ 2 * M + 1)]
  rw [Finset.sum_eq_sum_Ico_succ_bot (by omega : 0 < M + 1)]
  have hrefl : ∑ k ∈ Finset.Ico (M + 1) (2 * M + 1), g k =
      ∑ k ∈ Finset.Ico 1 (M + 1), g k := by
    rw [Finset.sum_Ico_eq_sum_range, Finset.sum_Ico_eq_sum_range]
    have hlen : 2 * M + 1 - (M + 1) = M := by omega
    have hlen2 : M + 1 - 1 = M := by omega
    rw [hlen, hlen2]
    rw [← Finset.sum_range_reflect (fun i => g (1 + i)) M]
    refine Finset.sum_congr rfl fun i hi => ?_
    simp only [Finset.mem_range] at hi
    have h1 : 1 + (M - 1 - i) = M - i := by omega
    rw [h1]
    have h2 := hsym (M + 1 + i) (by omega) (by omega)
    have h3 : 2 * M + 1 - (M + 1 + i) = M - i := by omega
    rw [h3] at h2
    exact h2.symm
  rw [hrefl]
  ring

lemma list_map_re_sum (l : List ℂ) : (l.map Complex.re).sum = l.sum.re := by
  induction l with
  | nil => simp
  | cons a t ih => simp [ih]

lemma range'_map_sum {M : Type} [AddCommMonoid M] (f : ℕ → M) (a m : ℕ) :
    ((List.range' a m).map f).sum = ∑ k ∈ Finset.Ico a (a + m), f k := by
  induction m generalizing a with
  | zero => simp
  | succ m ih =>
    rw [List.range'_succ]
    simp only [List.map_cons, List.sum_cons]
    rw [ih (a + 1)]
    rw [Finset.sum_eq_sum_Ico_succ_bot (by omega : a < a + (m + 1))]
    rw [show a + 1 + m = a + (m + 1) from by omega]

lemma range'_map_getD {M : Type} (f : ℕ → M) (a m i : ℕ) (hi : i < m)
    (d : M) :
    ((List.range' a m).map f).getD i d = f (a + i) := by
  induction m generalizing a i with
  | zero => omega
  | succ m ih =>
    rw [List.range'_succ]
    cases i with
    | zero => simp
    | succ i =>
      simp only [List.map_cons, List.getD_cons_succ]
      rw [ih (a + 1) i (by omega)]
      congr 1
      omega

lemma list_map_getD_sum (l : List ℝ) (f : ℝ → ℝ) :
    (l.map f).sum = ∑ j ∈ Finset.range l.length, f (l.getD j 0) := by
  induction l with
  | nil => simp
  | cons a t ih =>
    simp only [List.map_cons, List.sum_cons, List.length_cons]
    rw [Finset.sum_range_succ']
    simp only [List.getD_cons_succ, List.getD_cons_zero]
    rw [ih]
    ring

lemma sum_map_sub_const (l : List ℝ) (c : ℝ) :
    (l.map (fun x => x - c)).sum = l.sum - l.length * c := by
  induction l with
  | nil => simp
  | cons a t ih =>
    simp only [List.map_cons, List.sum_cons, List.length_cons, ih]
    push_cast
    ring

lemma listMean_demean (ts : List ℝ) (hts : ts ≠ []) :
    listMean (ts.map (fun x => x - listMean ts)) = 0 := by
  have h0 : ts.length ≠ 0 := by
    cases ts with
    | nil => exact absurd rfl hts
    | cons a t => simp
  have hN : (ts.length : ℝ) ≠ 0 := Nat.cast_ne_zero.mpr h0
  unfold listMean
  rw [List.length_map, sum_map_sub_const]
  field_simp

lemma psdFun_eq (ts : List ℝ) (dt : ℝ) (k : ℕ) (hN : 0 < ts.length) :
    psdFun ts dt k =
      (((dt / ts.length) * Complex.normSq (dftCoef ts k) : ℝ) : ℂ) := by
  have hNC : (ts.length : ℂ) ≠ 0 := Nat.cast_ne_zero.mpr hN.ne'
  unfold psdFun
  rw [map_div₀, map_natCast, div_mul_div_comm, Complex.mul_conj]
  push_cast
  field_simp
  ring

/-- Claim C1: for every nonempty real series ts and nonzero spacing dt, the
one-sided PSD returned by psdraw with demean=True satisfies the discrete
Parseval relation: the integral of the returned Sf over the returned
frequency axis (the Riemann sum (sum Sf) * df over the uniform frequency
grid with df = 1/(N dt)) equals exactly the population variance of the
demeaned input series. -/
lemma psdrawSfC_re_sum (u : List ℝ) (dt : ℝ) (hu : 0 < u.length) :
    ((psdrawSfC u dt).map Complex.re).sum =
      ∑ k ∈ Finset.range u.length,
        (dt / u.length) * Complex.normSq (dftCoef u k) := by
  set g : ℕ → ℝ := fun k => (dt / u.length) * Complex.normSq (dftCoef u k)
    with hg
  have hpsd : ∀ k, psdFun u dt k = ((g k : ℝ) : ℂ) := by
    intro k
    rw [hg]
    exact psdFun_eq u dt k hu
  have hsym : ∀ k, 1 ≤ k → k < u.length → g (u.length - k) = g k := by
    intro k h1 h2
    simp only [hg]
    rw [normSq_dft_reflect u k (le_of_lt h2) hu]
  have hterm : ∀ k, (Complex.re ∘ fun k => 2 * psdFun u dt k) k = 2 * g k := by
    intro k
    simp [Function.comp, hpsd k, ← Complex.ofReal_ofNat, ← Complex.ofReal_mul]
  unfold psdrawSfC
  by_cases hpar : u.length % 2 = 0
  · obtain ⟨M, hM2⟩ : ∃ M, u.length = 2 * M := ⟨u.length / 2, by omega⟩
    have hM : 1 ≤ M := by omega
    rw [hM2, if_pos (by omega : 2 * M % 2 = 0)]
    simp only [List.map_append, List.sum_append, List.map_cons,
      List.map_nil, List.sum_cons, List.sum_nil, List.map_map]
    rw [range'_map_sum]
    simp only [hterm]
    rw [show 2 * M / 2 = M from by omega, show 1 + (M - 1) = M from by omega]
    rw [← Finset.mul_sum]
    have hsym2 : ∀ k, 1 ≤ k → k < 2 * M → g (2 * M - k) = g k := by
      intro k h1 h2
      have := hsym k h1 (by omega)
      rw [hM2] at this
      exact this
    rw [sum_fold_even g M hM hsym2]
    simp [hpsd 0, hpsd M]
  · obtain ⟨M, hM2⟩ : ∃ M, u.length = 2 * M + 1 := ⟨u.length / 2, by omega⟩
    rw [hM2, if_neg (by omega : ¬ (2 * M + 1) % 2 = 0)]
    simp only [List.map_append, List.sum_append, List.map_cons,
      List.map_nil, List.sum_cons, List.sum_nil, List.map_map]
    rw [range'_map_sum]
    simp only [hterm]
    rw [show (2 * M + 1 + 1) / 2 = M + 1 from by omega,
      show 1 + (M + 1 - 1) = M + 1 from by omega]
    rw [← Finset.mul_sum]
    have hsym2 : ∀ k, 1 ≤ k → k < 2 * M + 1 → g (2 * M + 1 - k) = g k := by
      intro k h1 h2
      have := hsym k h1 (by omega)
      rw [hM2] at this
      exact this
    rw [sum_fold_odd g M hsym2]
    simp [hpsd 0]

/-- Claim C1: for every nonempty real series ts and nonzero spacing dt, the
one-sided PSD returned by psdraw with demean=True satisfies the discrete
Parseval relation: the integral of the returned Sf over the returned
frequency axis (the Riemann sum (sum Sf) * df over the uniform frequency
grid with df = 1/(N dt)) equals exactly the population variance of the
demeaned input series. -/
theorem psdraw_parseval (ts : List ℝ) (dt : ℝ) (hts : ts ≠ []) (hdt : dt ≠ 0) :
    (psdrawSf ts dt true).sum * (1 / ((ts.length : ℝ) * dt)) =
      listVar (ts.map (fun x => x - listMean ts)) := by
  set d : List ℝ := ts.map (fun x => x - listMean ts) with hddef
  have hdlen : d.length = ts.length := by rw [hddef, List.length_map]
  have h0 : ts.length ≠ 0 := by
    cases ts with
    | nil => exact absurd rfl hts
    | cons a t => simp
  have hN : 0 < ts.length := Nat.pos_of_ne_zero h0
  have hNd : 0 < d.length := by omega
  have hNR : (ts.length : ℝ) ≠ 0 := Nat.cast_ne_zero.mpr h0
  have hdemean : demeanIf ts true = d := by
    unfold demeanIf
    rw [if_pos rfl, hddef]
  have hsf : (psdrawSf ts dt true).sum =
      ∑ k ∈ Finset.range d.length,
        (dt / d.length) * Complex.normSq (dftCoef d k) := by
    unfold psdrawSf
    rw [hdemean]
    exact psdrawSfC_re_sum d dt hNd
  rw [hsf]
  rw [← Finset.mul_sum]
  rw [dft_parseval d]
  have hvar : listVar d =
      (∑ j ∈ Finset.range d.length, (d.getD j 0) ^ 2) / d.length := by
    unfold listVar
    rw [show listMean d = 0 from by rw [hddef]; exact listMean_demean ts hts]
    simp only [sub_zero]
    rw [list_map_getD_sum d (fun x => x ^ 2)]
  rw [hvar]
  rw [hdlen]
  field_simp
  ring

/-- Witness for C1 at ts = [1, -1], dt = 1. -/
theorem psdraw_parseval_witness :
    (psdrawSf [1, -1] 1 true).sum *
        (1 / ((([1, -1] : List ℝ).length : ℝ) * 1)) =
      listVar (([1, -1] : List ℝ).map (fun x => x - listMean [1, -1])) :=
  psdraw_parseval [1, -1] 1 (List.cons_ne_nil _ _) one_ne_zero

/-- Claim C2: psdraw folds the two-sided PSD into a one-sided spectrum by
doubling every bin except the zero-frequency bin and, exactly when N is
even, also not doubling the Nyquist bin N/2, which is appended undoubled;
the output has N/2 + 1 bins for even N and (N+1)/2 bins for odd N. -/
theorem psdraw_one_sided_fold (ts : List ℝ) (dt : ℝ) (demean : Bool)
    (hts : ts ≠ []) :
    (ts.length % 2 = 0 →
      (psdrawSf ts dt demean).length = ts.length / 2 + 1 ∧
      (psdrawSf ts dt demean).getD 0 0 =
        (psdFun (demeanIf ts demean) dt 0).re ∧
      (∀ i, 1 ≤ i → i < ts.length / 2 →
        (psdrawSf ts dt demean).getD i 0 =
          (2 * psdFun (demeanIf ts demean) dt i).re) ∧
      (psdrawSf ts dt demean).getD (ts.length / 2) 0 =
        (psdFun (demeanIf ts demean) dt (ts.length / 2)).re) ∧
    (ts.length % 2 = 1 →
      (psdrawSf ts dt demean).length = (ts.length + 1) / 2 ∧
      (psdrawSf ts dt demean).getD 0 0 =
        (psdFun (demeanIf ts demean) dt 0).re ∧
      (∀ i, 1 ≤ i → i < (ts.length + 1) / 2 →
        (psdrawSf ts dt demean).getD i 0 =
          (2 * psdFun (demeanIf ts demean) dt i).re)) := by
  have h0 : ts.length ≠ 0 := by
    cases ts with
    | nil => exact absurd rfl hts
    | cons a t => simp
  have hdlen : (demeanIf ts demean).length = ts.length := by
    unfold demeanIf
    cases demean <;> simp
  constructor
  · intro hpar
    obtain ⟨M, hM2⟩ : ∃ M, ts.length = 2 * M := ⟨ts.length / 2, by omega⟩
    obtain ⟨j, rfl⟩ : ∃ j, M = j + 1 := ⟨M - 1, by omega⟩
    unfold psdrawSf psdrawSfC
    rw [hdlen, hM2, if_pos (by omega : 2 * (j + 1) % 2 = 0)]
    rw [show 2 * (j + 1) / 2 = j + 1 from by omega]
    have hshape : ([psdFun (demeanIf ts demean) dt 0] ++
        (List.range' 1 (j + 1 - 1)).map
          (fun k => 2 * psdFun (demeanIf ts demean) dt k) ++
        [psdFun (demeanIf ts demean) dt (j + 1)]).map Complex.re =
      (psdFun (demeanIf ts demean) dt 0).re ::
        ((List.range' 1 j).map
          (Complex.re ∘ fun k => 2 * psdFun (demeanIf ts demean) dt k) ++
         [(psdFun (demeanIf ts demean) dt (j + 1)).re]) := by
      simp [List.map_append, List.map_map]
    rw [hshape]
    have hmidlen : ((List.range' 1 j).map
        (Complex.re ∘ fun k => 2 * psdFun (demeanIf ts demean) dt k)).length
          = j := by
      rw [List.length_map, List.length_range']
    refine ⟨?_, ?_, ?_, ?_⟩
    · rw [List.length_cons, List.length_append, hmidlen]
      simp only [List.length_singleton, List.length_nil, List.length_cons]
    · simp
    · intro i h1 h2
      obtain ⟨i2, rfl⟩ : ∃ i2, i = i2 + 1 := ⟨i - 1, by omega⟩
      rw [List.getD_cons_succ]
      rw [List.getD_append _ _ _ _ (by omega : i2 < ((List.range' 1 j).map
        (Complex.re ∘ fun k => 2 * psdFun (demeanIf ts demean) dt k)).length)]
      rw [range'_map_getD _ 1 j i2 (by omega)]
      simp [Function.comp]
      rw [show 1 + i2 = i2 + 1 from by omega]
    · rw [List.getD_cons_succ]
      rw [List.getD_append_right _ _ _ _ (by omega : ((List.range' 1 j).map
        (Complex.re ∘ fun k => 2 * psdFun (demeanIf ts demean) dt k)).length
          ≤ j)]
      rw [hmidlen]
      simp
  · intro hpar
    obtain ⟨M, hM2⟩ : ∃ M, ts.length = 2 * M + 1 := ⟨ts.length / 2, by omega⟩
    unfold psdrawSf psdrawSfC
    rw [hdlen, hM2, if_neg (by omega : ¬ (2 * M + 1) % 2 = 0)]
    rw [show (2 * M + 1 + 1) / 2 = M + 1 from by omega]
    rw [show M + 1 - 1 = M from by omega]
    have hshape : ([psdFun (demeanIf ts demean) dt 0] ++
        (List.range' 1 M).map
          (fun k => 2 * psdFun (demeanIf ts demean) dt k)).map Complex.re =
      (psdFun (demeanIf ts demean) dt 0).re ::
        (List.range' 1 M).map
          (Complex.re ∘ fun k => 2 * psdFun (demeanIf ts demean) dt k) := by
      simp [List.map_append, List.map_map]
    rw [hshape]
    refine ⟨?_, ?_, ?_⟩
    · simp only [List.length_cons, List.length_map, List.length_range']
    · simp
    · intro i h1 h2
      obtain ⟨i2, rfl⟩ : ∃ i2, i = i2 + 1 := ⟨i - 1, by omega⟩
      rw [List.getD_cons_succ]
      rw [range'_map_getD _ 1 M i2 (by omega)]
      simp [Function.comp]
      rw [Nat.add_comm 1 i2]

/-- Witness for C2 at the even-length series ts = [1, -1] (N = 2): the
output has 2/2 + 1 = 2 bins. -/
theorem psdraw_one_sided_fold_witness :
    (psdrawSf [1, -1] 1 false).length = ([1, -1] : List ℝ).length / 2 + 1 :=
  ((psdraw_one_sided_fold [1, -1] 1 false (List.cons_ne_nil _ _)).1
    (by rfl)).1

end Pynmd
